import Mathlib

/-!
# Verification of the `pycsmaca` CSMA/CA model

Shallow embedding of the parts of `pycsmaca` needed to settle the frozen
claims: the MAC-layer Transmitter and Receiver finite state machines and
the bounded `Queue` (`simulations/modules/*.py`), the radio connection
manager (`simulations/modules/radio.py`), and the analytic Bianchi
absorbing-Markov-chain construction (`analytic/bianchi.py`).

Conventions of the embedding:
* Python floats are modelled as exact rationals (`ℚ`).
* Stateful modules become explicit state records; each Python method
  becomes a pure function `state → state × actions`, where the action
  list records the externally visible calls the method makes
  (scheduling / cancelling timers, `queue.get_next`, `channel.set_busy`,
  `radio.transmit`, ...).  Logging and time-weighted trace statistics
  are not represented; counters and sample statistics that the claims
  mention are.
* Random draws (`randint(0, cw)`) and environment queries
  (`channel.is_busy`) appear as explicit parameters of the step
  functions, so a step function describes the code's behaviour for each
  possible outcome of the draw / query.
-/

namespace PyCSMACA

/-! ## Queue (`simulations/modules/queues.py`) -/

/-- A network packet as seen by the queue and the MAC layer: only the
fields the embedded code reads (`sender_address`, `receiver_address`,
`size`). -/
structure NetPacket where
  sender_address : ℕ
  receiver_address : ℕ
  size : ℚ
deriving DecidableEq, Repr

/-- `QueuedPacket` from `queues.py`: a packet together with its arrival
time. -/
structure QueuedPacket where
  packet : NetPacket
  arrived_at : ℚ
deriving DecidableEq, Repr

/-- The mutable state of a `Queue` module.  `capacity = none` models the
unbounded queue (`capacity=None`); `data_requests` holds the pending
connections (identified by number) registered by `get_next` calls. -/
structure QueueState where
  capacity : Option ℕ
  packets : List QueuedPacket
  data_requests : List ℕ
  num_dropped : ℕ
  num_arrived : ℕ
  wait_intervals : List ℚ
  arrival_times : List ℚ
deriving DecidableEq, Repr

/-- Effect of one `Queue.push` step: either the packet was forwarded to a
pending requester (`connection.send(packet)`) or nothing left the queue. -/
inductive QueueEffect
  | sent (connection : ℕ) (packet : NetPacket)
  | noSend
deriving DecidableEq, Repr

/-- `Queue.push(packet)` (`queues.py` lines 132-146).  Counts the
arrival, serves a pending data request first; otherwise appends to the
backing deque if there is room, and silently drops the packet (counting
it in `num_dropped`) when the queue is full.  The Python method has no
`raise` path; correspondingly the embedding is a total function. -/
def queuePush (q : QueueState) (now : ℚ) (packet : NetPacket) :
    QueueState × QueueEffect :=
  let q := { q with
    num_arrived := q.num_arrived + 1,
    arrival_times := q.arrival_times ++ [now] }
  match q.data_requests with
  | connection :: rest =>
      ({ q with data_requests := rest,
                wait_intervals := q.wait_intervals ++ [0] },
       QueueEffect.sent connection packet)
  | [] =>
      match q.capacity with
      | none =>
          ({ q with packets := q.packets ++ [⟨packet, now⟩] },
           QueueEffect.noSend)
      | some cap =>
          if q.packets.length < cap then
            ({ q with packets := q.packets ++ [⟨packet, now⟩] },
             QueueEffect.noSend)
          else
            ({ q with num_dropped := q.num_dropped + 1 },
             QueueEffect.noSend)

/-- `Queue.full()` from `queues.py`: `len(self) == self.capacity`. -/
def queueFull (q : QueueState) : Prop := q.capacity = some q.packets.length

instance (q : QueueState) : Decidable (queueFull q) := by
  unfold queueFull; infer_instance

/-- **C7.** For every bounded queue that is full and has no pending data
request, `push` leaves the stored packet sequence unchanged, increments
`num_dropped` by exactly 1 and `num_arrived` by 1, sends nothing out,
and (being a total function, like the exception-free Python method)
returns normally. -/
theorem C7_queue_push_drop_on_full (q : QueueState) (now : ℚ)
    (packet : NetPacket) (hfull : queueFull q)
    (hreq : q.data_requests = []) :
    (queuePush q now packet).1.packets = q.packets ∧
    (queuePush q now packet).1.num_dropped = q.num_dropped + 1 ∧
    (queuePush q now packet).1.num_arrived = q.num_arrived + 1 ∧
    (queuePush q now packet).2 = QueueEffect.noSend := by
  obtain ⟨cap, hcap⟩ : ∃ cap, q.capacity = some cap := ⟨_, hfull⟩
  have hlen : q.packets.length = cap := by
    have := hfull; rw [queueFull, hcap] at this
    exact (Option.some.inj this).symm
  simp [queuePush, hreq, hcap, hlen]

/-- Witness for C7 at a concrete full queue of capacity 2. -/
theorem C7_queue_push_drop_on_full_witness :
    let q : QueueState :=
      { capacity := some 2,
        packets := [⟨⟨1, 2, 100⟩, 0⟩, ⟨⟨1, 2, 200⟩, 1⟩],
        data_requests := [], num_dropped := 0, num_arrived := 2,
        wait_intervals := [], arrival_times := [0, 1] }
    (queuePush q 5 ⟨1, 2, 300⟩).1.packets = q.packets ∧
    (queuePush q 5 ⟨1, 2, 300⟩).1.num_dropped = q.num_dropped + 1 ∧
    (queuePush q 5 ⟨1, 2, 300⟩).1.num_arrived = q.num_arrived + 1 ∧
    (queuePush q 5 ⟨1, 2, 300⟩).2 = QueueEffect.noSend :=
  C7_queue_push_drop_on_full _ 5 ⟨1, 2, 300⟩ (by decide) rfl

/-! ## Transmitter FSM (`simulations/modules/wireless_interface.py`) -/

/-- `Transmitter.State` enumeration. -/
inductive TxState
  | IDLE | BUSY | BACKOFF | TX | WAIT_ACK
deriving DecidableEq, Repr

/-- `DataPDU`: the fields the MAC code reads.  `size` is
`header_size + packet.size` (`DataPDU.size`). -/
structure DataPDU where
  packet : NetPacket
  header_size : ℚ
  seqn : ℕ
  sender_address : ℕ
  receiver_address : ℕ
deriving DecidableEq, Repr

/-- `DataPDU.size` property. -/
def DataPDU.size (p : DataPDU) : ℚ := p.header_size + p.packet.size

/-- Static configuration of a transmitter: the `sim.params` fields and
constructor arguments it reads. -/
structure TxConfig where
  cwmin : ℕ
  cwmax : ℕ
  difs : ℚ
  sifs : ℚ
  slot : ℚ
  phy_header_size : ℚ
  mac_header_size : ℚ
  ack_size : ℚ
  bitrate : ℚ
  preamble : ℚ
  max_propagation : ℚ
  address : ℕ
deriving DecidableEq, Repr

/-- Mutable state of a `Transmitter`.  `timeout` holds the handle of the
most recently scheduled timer event (`self.timeout`), `none` before any
timer was scheduled.  Fields that in Python start as `None`
(`num_retries`, `start_service_time`) are `Option`s. -/
structure TxData where
  state : TxState
  cw : ℕ
  backoff : ℤ
  num_retries : Option ℕ
  pdu : Option DataPDU
  timeout : Option ℕ
  seqn : ℕ
  num_sent : ℕ
  start_service_time : Option ℚ
  service_time : List ℚ
  num_retries_vector : List ℕ
  backoff_vector : List ℤ
deriving DecidableEq, Repr

/-- Initial transmitter state (`Transmitter.__init__`): `IDLE`, no PDU,
`cw = 65536`, `backoff = -1`, empty statistics. -/
def txInit : TxData :=
  { state := TxState.IDLE, cw := 65536, backoff := -1,
    num_retries := none, pdu := none, timeout := none, seqn := 0,
    num_sent := 0, start_service_time := none, service_time := [],
    num_retries_vector := [], backoff_vector := [] }

/-- Externally visible calls a transmitter handler makes. -/
inductive TxAction
  /-- `self.sim.cancel(self.timeout)` on the stored handle. -/
  | cancel (handle : Option ℕ)
  /-- `self.timeout = self.sim.schedule(delay, handler)`; `handle` is the
  fresh event handle returned by the scheduler. -/
  | schedule (delay : ℚ) (handle : ℕ)
  /-- `self.queue.get_next(self)`. -/
  | queueGetNext
  /-- `self.radio.transmit(pdu)`. -/
  | radioTransmit (pdu : DataPDU)
deriving DecidableEq, Repr

/-- The duration argument of the ACK-wait timer scheduled by
`Transmitter.finish_transmit` (lines 325-328):
`(ack_size + mac_header_size + phy_header_size) / bitrate + preamble
 + 6 * max_propagation`. -/
def txAckDuration (cfg : TxConfig) : ℚ :=
  (cfg.ack_size + cfg.mac_header_size + cfg.phy_header_size) / cfg.bitrate
    + cfg.preamble + 6 * cfg.max_propagation

/-- `Transmitter.handle_message` for a packet arriving over the `queue`
connection (lines 269-303).  The leading `assert state == IDLE` is a
guard of the step relation (`TxStep`), not of this function.  `draw` is
the value returned by `randint(0, self.cw)`, `chBusy` the value of
`self.channel.is_busy`, `eid` the handle of the timer scheduled in the
non-busy branch. -/
def txHandleMessage (cfg : TxConfig) (packet : NetPacket) (draw : ℕ)
    (chBusy : Bool) (now : ℚ) (eid : ℕ) (t : TxData) :
    TxData × List TxAction :=
  let pdu : DataPDU :=
    { packet := packet,
      header_size := cfg.phy_header_size + cfg.mac_header_size,
      seqn := t.seqn,
      sender_address := cfg.address,
      receiver_address := packet.receiver_address }
  let t := { t with
    cw := cfg.cwmin, backoff := (draw : ℤ), num_retries := some 1,
    pdu := some pdu, seqn := t.seqn + 1,
    start_service_time := some now,
    backoff_vector := t.backoff_vector ++ [(draw : ℤ)] }
  if chBusy then
    ({ t with state := TxState.BUSY }, [])
  else
    ({ t with state := TxState.BACKOFF, timeout := some eid },
     [TxAction.schedule cfg.difs eid])

/-- `Transmitter.channel_ready` (lines 310-315). -/
def txChannelReady (cfg : TxConfig) (eid : ℕ) (t : TxData) :
    TxData × List TxAction :=
  if t.state = TxState.BUSY then
    ({ t with state := TxState.BACKOFF, timeout := some eid },
     [TxAction.schedule cfg.difs eid])
  else (t, [])

/-- `Transmitter.channel_busy` (lines 317-320). -/
def txChannelBusy (t : TxData) : TxData × List TxAction :=
  if t.state = TxState.BACKOFF then
    ({ t with state := TxState.BUSY }, [TxAction.cancel t.timeout])
  else (t, [])

/-- `Transmitter.finish_transmit` (lines 322-332). -/
def txFinishTransmit (cfg : TxConfig) (eid : ℕ) (t : TxData) :
    TxData × List TxAction :=
  if t.state = TxState.TX then
    ({ t with state := TxState.WAIT_ACK, timeout := some eid },
     [TxAction.schedule (cfg.sifs + txAckDuration cfg) eid])
  else (t, [])

/-- `Transmitter.acknowledged` (lines 334-352).  Outside `WAIT_ACK` the
call is ignored.  In `WAIT_ACK` the Python code reads
`self.__start_service_time` and `self.num_retries`, both set while the
current packet entered service; should they be `None` the subtraction /
append would raise, so the embedding reads them with a default that the
C3 theorem's hypotheses pin to the actual stored values. -/
def txAcknowledged (t : TxData) (now : ℚ) : TxData × List TxAction :=
  if t.state = TxState.WAIT_ACK then
    ({ t with
        pdu := none, state := TxState.IDLE,
        num_sent := t.num_sent + 1,
        service_time :=
          t.service_time ++ [now - t.start_service_time.getD 0],
        start_service_time := none,
        num_retries_vector :=
          t.num_retries_vector ++ [t.num_retries.getD 0],
        num_retries := none },
     [TxAction.cancel t.timeout, TxAction.queueGetNext])
  else (t, [])

/-- `Transmitter.handle_ack_timeout` (lines 354-373).  The leading
`assert state == WAIT_ACK` is a guard of the step relation.  `draw` is
the value of `randint(0, self.cw)` taken after the window update. -/
def txHandleAckTimeout (cfg : TxConfig) (draw : ℕ) (chBusy : Bool)
    (eid : ℕ) (t : TxData) : TxData × List TxAction :=
  let t := { t with
    num_retries := some (t.num_retries.getD 0 + 1),
    cw := min (2 * t.cw) cfg.cwmax }
  let t := { t with
    backoff := (draw : ℤ),
    backoff_vector := t.backoff_vector ++ [(draw : ℤ)] }
  if chBusy then
    ({ t with state := TxState.BUSY }, [])
  else
    ({ t with state := TxState.BACKOFF, timeout := some eid },
     [TxAction.schedule cfg.difs eid])

/-- `Transmitter.handle_backoff_timeout` (lines 375-386). -/
def txHandleBackoffTimeout (cfg : TxConfig) (eid : ℕ) (t : TxData) :
    TxData × List TxAction :=
  if t.backoff = 0 then
    ({ t with state := TxState.TX },
     (t.pdu.map TxAction.radioTransmit).toList)
  else
    ({ t with backoff := t.backoff - 1, timeout := some eid },
     [TxAction.schedule cfg.slot eid])

/-- One event-callback step of the Transmitter: any of its handlers
fires, with the Python `assert`s (which abort the run rather than
produce a state) as guards.  `randint` draws, channel-busy queries and
fresh event handles are free parameters of the step.  The
`backoffTimeout` step additionally carries the scheduler discipline
`state = BACKOFF`: a pending `handle_backoff_timeout` event exists only
while the transmitter is in `BACKOFF` (the timer is scheduled exactly on
entry to `BACKOFF`, rescheduled only from within `BACKOFF`, and canceled
by `channel_busy` on leaving `BACKOFF`). -/
inductive TxStep (cfg : TxConfig) : TxData → TxData → Prop
  | queueMsg (packet : NetPacket) (draw : ℕ) (chBusy : Bool) (now : ℚ)
      (eid : ℕ) {t : TxData} (hidle : t.state = TxState.IDLE) :
      TxStep cfg t (txHandleMessage cfg packet draw chBusy now eid t).1
  | channelReady (eid : ℕ) {t : TxData} :
      TxStep cfg t (txChannelReady cfg eid t).1
  | channelBusy {t : TxData} :
      TxStep cfg t (txChannelBusy t).1
  | finishTransmit (eid : ℕ) {t : TxData} :
      TxStep cfg t (txFinishTransmit cfg eid t).1
  | acked (now : ℚ) {t : TxData} :
      TxStep cfg t (txAcknowledged t now).1
  | ackTimeout (draw : ℕ) (chBusy : Bool) (eid : ℕ) {t : TxData}
      (hwait : t.state = TxState.WAIT_ACK) :
      TxStep cfg t (txHandleAckTimeout cfg draw chBusy eid t).1
  | backoffTimeout (eid : ℕ) {t : TxData}
      (hstate : t.state = TxState.BACKOFF) (hback : 0 ≤ t.backoff) :
      TxStep cfg t (txHandleBackoffTimeout cfg eid t).1

/-- Transmitter states reachable from the initial state by event
callbacks: the quiescent states of the FSM. -/
inductive TxReach (cfg : TxConfig) : TxData → Prop
  | init : TxReach cfg txInit
  | step {t t' : TxData} : TxReach cfg t → TxStep cfg t t' → TxReach cfg t'

/-- A demo configuration (the concrete-scenario parameters of the test
suite: `cwmin=2, cwmax=8`, 1000-bit payloads at 1000 bps). -/
def txCfgDemo : TxConfig :=
  { cwmin := 2, cwmax := 8, difs := 1/5, sifs := 1/10, slot := 1/20,
    phy_header_size := 25, mac_header_size := 50, ack_size := 100,
    bitrate := 1000, preamble := 1/1000, max_propagation := 1/1000,
    address := 1 }

/-- A demo payload packet addressed from station 1 to station 2. -/
def pktDemo : NetPacket := { sender_address := 1, receiver_address := 2, size := 1000 }

/-- Concrete run to a second-service-cycle `WAIT_ACK` state: deliver a
packet (channel idle, backoff draw 0), fire the backoff timer, finish
the transmission, miss the ACK (timeout, draw 0 again), fire the backoff
timer, finish the retransmission.  The resulting state waits for the ACK
of the first retry, with a doubled contention window `cw = 4`. -/
def txDemo1 : TxData := (txHandleMessage txCfgDemo pktDemo 0 false 0 10 txInit).1

/-- Second state of the concrete run: backoff timer fired at `backoff = 0`. -/
def txDemo2 : TxData := (txHandleBackoffTimeout txCfgDemo 11 txDemo1).1

/-- Third state of the concrete run: radio reported end of transmission. -/
def txDemo3 : TxData := (txFinishTransmit txCfgDemo 12 txDemo2).1

/-- Fourth state: the ACK timeout fired (no ACK), `cw` doubles to 4. -/
def txDemo4 : TxData := (txHandleAckTimeout txCfgDemo 0 false 13 txDemo3).1

/-- Fifth state: backoff timer fired again. -/
def txDemo5 : TxData := (txHandleBackoffTimeout txCfgDemo 14 txDemo4).1

/-- Sixth state: retransmission finished; `WAIT_ACK` with `cw = 4`. -/
def txDemo6 : TxData := (txFinishTransmit txCfgDemo 15 txDemo5).1

/-- The demo states are reachable. -/
theorem txDemo6_reachable : TxReach txCfgDemo txDemo6 :=
  (((((TxReach.init.step
    (TxStep.queueMsg pktDemo 0 false 0 10 rfl)).step
    (TxStep.backoffTimeout 11 (by decide) (by decide))).step
    (TxStep.finishTransmit 12)).step
    (TxStep.ackTimeout 0 false 13 (by decide))).step
    (TxStep.backoffTimeout 14 (by decide) (by decide))).step
    (TxStep.finishTransmit 15)

/-- **C3 (counterexample).** The claim says `acknowledged()` in
`WAIT_ACK` "resets the contention window to CW = cwmin".  It does not:
at the reachable state `txDemo6` (in `WAIT_ACK` after one retry,
`cw = 4`) the acknowledgement leaves `cw = 4 ≠ cwmin = 2`.  The window
is reset only later, by `handle_message` when the queue delivers the
next payload. -/
theorem C3_cw_not_reset_counterexample :
    TxReach txCfgDemo txDemo6 ∧
    txDemo6.state = TxState.WAIT_ACK ∧
    (txAcknowledged txDemo6 10).1.cw = 4 ∧
    txCfgDemo.cwmin = 2 ∧
    (txAcknowledged txDemo6 10).1.cw ≠ txCfgDemo.cwmin :=
  ⟨txDemo6_reachable, by decide, by decide, by decide, by decide⟩

/-- **C3 (amended).** When `Transmitter.acknowledged()` is invoked in
`WAIT_ACK` it cancels the pending ACK timeout, appends the service time
(`now` minus the service start time) and the retry count to their
statistics, increments the sent-packet counter by 1, clears the
in-flight PDU, transitions to `IDLE` and requests the next payload from
the queue — but it leaves the contention window unchanged; `CW` is reset
to `cwmin` by `handle_message` when the next payload is delivered. -/
theorem C3_acknowledged (t : TxData) (now s : ℚ) (r : ℕ)
    (hw : t.state = TxState.WAIT_ACK)
    (hs : t.start_service_time = some s)
    (hr : t.num_retries = some r) :
    (txAcknowledged t now).2 =
      [TxAction.cancel t.timeout, TxAction.queueGetNext] ∧
    (txAcknowledged t now).1.service_time = t.service_time ++ [now - s] ∧
    (txAcknowledged t now).1.num_retries_vector =
      t.num_retries_vector ++ [r] ∧
    (txAcknowledged t now).1.num_sent = t.num_sent + 1 ∧
    (txAcknowledged t now).1.cw = t.cw ∧
    (txAcknowledged t now).1.pdu = none ∧
    (txAcknowledged t now).1.state = TxState.IDLE ∧
    (∀ (cfg : TxConfig) (packet : NetPacket) (draw : ℕ) (chBusy : Bool)
        (now' : ℚ) (eid : ℕ) (u : TxData),
      (txHandleMessage cfg packet draw chBusy now' eid u).1.cw = cfg.cwmin)
    := by
  have h8 : ∀ (cfg : TxConfig) (packet : NetPacket) (draw : ℕ)
      (chBusy : Bool) (now' : ℚ) (eid : ℕ) (u : TxData),
      (txHandleMessage cfg packet draw chBusy now' eid u).1.cw =
        cfg.cwmin := by
    intro cfg packet draw chBusy now' eid u
    simp only [txHandleMessage]
    split <;> rfl
  refine ⟨?_, ?_, ?_, ?_, ?_, ?_, ?_, h8⟩ <;>
    simp [txAcknowledged, hw, hs, hr]

/-- Witness for C3 (amended) at the concrete reachable state `txDemo6`. -/
theorem C3_acknowledged_witness :
    (txAcknowledged txDemo6 10).2 =
      [TxAction.cancel txDemo6.timeout, TxAction.queueGetNext] ∧
    (txAcknowledged txDemo6 10).1.service_time =
      txDemo6.service_time ++ [10 - 0] ∧
    (txAcknowledged txDemo6 10).1.num_retries_vector =
      txDemo6.num_retries_vector ++ [2] ∧
    (txAcknowledged txDemo6 10).1.num_sent = txDemo6.num_sent + 1 ∧
    (txAcknowledged txDemo6 10).1.cw = txDemo6.cw ∧
    (txAcknowledged txDemo6 10).1.pdu = none ∧
    (txAcknowledged txDemo6 10).1.state = TxState.IDLE ∧
    (∀ (cfg : TxConfig) (packet : NetPacket) (draw : ℕ) (chBusy : Bool)
        (now' : ℚ) (eid : ℕ) (u : TxData),
      (txHandleMessage cfg packet draw chBusy now' eid u).1.cw = cfg.cwmin)
    :=
  C3_acknowledged txDemo6 10 0 2 (by decide) (by decide) (by decide)

/-- Concrete reachable state violating C4 as stated: a packet delivered
while the channel is busy puts the transmitter in `BUSY` with a PDU in
flight. -/
def txBusyDemo : TxData := (txHandleMessage txCfgDemo pktDemo 1 true 0 10 txInit).1

/-- **C4 (counterexample).** The claim says the PDU field is non-null
iff the state is in `{BACKOFF, TX, WAIT_ACK}`.  The reachable state
`txBusyDemo` (packet delivered while the channel was busy) is in `BUSY`
and holds a PDU, refuting the claimed equivalence. -/
theorem C4_pdu_in_busy_counterexample :
    TxReach txCfgDemo txBusyDemo ∧
    txBusyDemo.pdu ≠ none ∧
    ¬(txBusyDemo.state = TxState.BACKOFF ∨ txBusyDemo.state = TxState.TX ∨
      txBusyDemo.state = TxState.WAIT_ACK) :=
  ⟨TxReach.init.step (TxStep.queueMsg pktDemo 1 true 0 10 rfl),
   by decide, by decide⟩

/-- Every Transmitter event callback preserves the invariant
"`pdu` non-null iff state not `IDLE`". -/
theorem txStep_preserves_pdu_inv (cfg : TxConfig) {a b : TxData}
    (h : TxStep cfg a b) (ih : a.pdu ≠ none ↔ a.state ≠ TxState.IDLE) :
    b.pdu ≠ none ↔ b.state ≠ TxState.IDLE := by
  cases h with
  | queueMsg packet draw chBusy now eid hidle =>
    simp only [txHandleMessage]
    split <;> simp
  | channelReady eid =>
    simp only [txChannelReady]
    split
    next hbusy => simp [ih.mpr (by rw [hbusy]; decide)]
    next => exact ih
  | channelBusy =>
    simp only [txChannelBusy]
    split
    next hback => simp [ih.mpr (by rw [hback]; decide)]
    next => exact ih
  | finishTransmit eid =>
    simp only [txFinishTransmit]
    split
    next htx => simp [ih.mpr (by rw [htx]; decide)]
    next => exact ih
  | acked now =>
    simp only [txAcknowledged]
    split
    next => simp
    next => exact ih
  | ackTimeout draw chBusy eid hwait =>
    simp only [txHandleAckTimeout]
    have hp : a.pdu ≠ none := ih.mpr (by rw [hwait]; decide)
    split <;> simp [hp]
  | backoffTimeout eid hstate hback =>
    simp only [txHandleBackoffTimeout]
    have hp : a.pdu ≠ none := ih.mpr (by rw [hstate]; decide)
    split <;> simp [hp, hstate]

/-- **C4 (amended).** In every reachable quiescent state of the
Transmitter FSM, the `pdu` field is non-null iff the state is in
`{BUSY, BACKOFF, TX, WAIT_ACK}` (equivalently: iff the state is not
`IDLE`) — the claimed set was missing `BUSY`, which also holds the
in-flight PDU while the channel is occupied. -/
theorem C4_pdu_iff_not_idle (cfg : TxConfig) (t : TxData)
    (h : TxReach cfg t) : t.pdu ≠ none ↔ t.state ≠ TxState.IDLE := by
  induction h with
  | init => simp [txInit]
  | step hr hs ih => exact txStep_preserves_pdu_inv cfg hs ih

/-- Witness for C4 (amended) at the reachable state `txDemo6`. -/
theorem C4_pdu_iff_not_idle_witness :
    txDemo6.pdu ≠ none ↔ txDemo6.state ≠ TxState.IDLE :=
  C4_pdu_iff_not_idle txCfgDemo txDemo6 txDemo6_reachable

/-- **C5.** When the ACK timeout fires in `WAIT_ACK`, the transmitter
increments the retry count, doubles the contention window capped at
`cwmax` (`cw = min(2·cw, cwmax)`), stores the fresh backoff draw (taken
from `[0, cw)` for the updated window), and moves to `BUSY` if the
channel is busy, otherwise to `BACKOFF` while scheduling a DIFS timer —
the same branch on the channel state that `handle_message` takes on
entry from `IDLE`. -/
theorem C5_ack_timeout (cfg : TxConfig) (t : TxData) (draw : ℕ)
    (chBusy : Bool) (eid : ℕ) (r : ℕ)
    (hw : t.state = TxState.WAIT_ACK)
    (hr : t.num_retries = some r)
    (hdraw : draw < min (2 * t.cw) cfg.cwmax) :
    (txHandleAckTimeout cfg draw chBusy eid t).1.num_retries =
      some (r + 1) ∧
    (txHandleAckTimeout cfg draw chBusy eid t).1.cw =
      min (2 * t.cw) cfg.cwmax ∧
    (txHandleAckTimeout cfg draw chBusy eid t).1.backoff = (draw : ℤ) ∧
    (txHandleAckTimeout cfg draw chBusy eid t).1.state =
      (if chBusy then TxState.BUSY else TxState.BACKOFF) ∧
    (txHandleAckTimeout cfg draw chBusy eid t).2 =
      (if chBusy then [] else [TxAction.schedule cfg.difs eid]) ∧
    (∀ (packet : NetPacket) (now : ℚ) (u : TxData),
      (txHandleMessage cfg packet draw chBusy now eid u).1.state =
        (txHandleAckTimeout cfg draw chBusy eid t).1.state ∧
      (txHandleMessage cfg packet draw chBusy now eid u).2 =
        (txHandleAckTimeout cfg draw chBusy eid t).2) := by
  refine ⟨?_, ?_, ?_, ?_, ?_, ?_⟩
  case refine_6 =>
    intro packet now u
    cases chBusy <;> simp [txHandleAckTimeout, txHandleMessage, hr]
  all_goals cases chBusy <;> simp [txHandleAckTimeout, hr]

/-- Witness for C5 at the reachable `WAIT_ACK` state `txDemo3`
(first service cycle, `cw = 2`), with draw 3 from the doubled window. -/
theorem C5_ack_timeout_witness :
    (txHandleAckTimeout txCfgDemo 3 false 20 txDemo3).1.num_retries =
      some (1 + 1) ∧
    (txHandleAckTimeout txCfgDemo 3 false 20 txDemo3).1.cw =
      min (2 * txDemo3.cw) txCfgDemo.cwmax ∧
    (txHandleAckTimeout txCfgDemo 3 false 20 txDemo3).1.backoff =
      ((3 : ℕ) : ℤ) ∧
    (txHandleAckTimeout txCfgDemo 3 false 20 txDemo3).1.state =
      (if false then TxState.BUSY else TxState.BACKOFF) ∧
    (txHandleAckTimeout txCfgDemo 3 false 20 txDemo3).2 =
      (if false then [] else [TxAction.schedule txCfgDemo.difs 20]) ∧
    (∀ (packet : NetPacket) (now : ℚ) (u : TxData),
      (txHandleMessage txCfgDemo packet 3 false now 20 u).1.state =
        (txHandleAckTimeout txCfgDemo 3 false 20 txDemo3).1.state ∧
      (txHandleMessage txCfgDemo packet 3 false now 20 u).2 =
        (txHandleAckTimeout txCfgDemo 3 false 20 txDemo3).2) :=
  C5_ack_timeout txCfgDemo txDemo3 3 false 20 1
    (by decide) (by decide) (by decide)

/-! ## Receiver FSM (`simulations/modules/wireless_interface.py`) -/

/-- `Receiver.State` enumeration. -/
inductive RxState
  | IDLE | RX | TX1 | TX2 | COLLIDED | WAIT_SEND_ACK | SEND_ACK
deriving DecidableEq, Repr

/-- Mutable state of a `Receiver`.  The Python reception buffer is a
`set` of PDU objects; it is modelled as a list of PDU identifiers (a
PDU is never added twice: `start_receive` raises on a duplicate), with
membership as the set test. -/
structure RxData where
  state : RxState
  rxbuf : List ℕ
  num_collisions : ℕ
  num_received : ℕ
  cur_tx_pdu : Option ℕ
deriving DecidableEq, Repr

/-- Initial receiver state (`Receiver.__init__`). -/
def rxInit : RxData :=
  { state := RxState.IDLE, rxbuf := [], num_collisions := 0,
    num_received := 0, cur_tx_pdu := none }

/-- The `Receiver.state` property setter (lines 443-456): a no-op when
the state is unchanged; otherwise it records the transition and, when
the new state is `COLLIDED`, increments the collision counter. -/
def rxSetState (r : RxData) (st : RxState) : RxData :=
  if st ≠ r.state then
    { r with
      state := st,
      num_collisions :=
        if st = RxState.COLLIDED then r.num_collisions + 1
        else r.num_collisions }
  else r

/-- Externally visible calls a receiver handler makes. -/
inductive RxAction
  | channelSetBusy
  | channelSetReady
  | transmitterAcknowledged
  | scheduleSifsAck
  | radioTransmitAck
  | deliverUp (pduId : ℕ)
deriving DecidableEq, Repr

/-- `Receiver.start_receive(pdu)` (lines 520-539).  Raises
(`RuntimeError`, modelled by `Except.error`) when the PDU is already
buffered; otherwise moves `IDLE`+empty-buffer to `RX` (marking the
channel busy), moves `RX` — or `IDLE` with a non-empty residual
buffer — to `COLLIDED`, and in every branch adds the PDU to the
reception buffer. -/
def rxStartReceive (r : RxData) (pduId : ℕ) :
    Except String (RxData × List RxAction) :=
  if pduId ∈ r.rxbuf then Except.error "PDU is already in the buffer"
  else
    let (r, acts) :=
      if r.state = RxState.IDLE ∧ r.rxbuf = [] then
        (rxSetState r RxState.RX, [RxAction.channelSetBusy])
      else if r.state = RxState.RX ∨
          (r.state = RxState.IDLE ∧ r.rxbuf ≠ []) then
        (rxSetState r RxState.COLLIDED, [])
      else (r, [])
    Except.ok ({ r with rxbuf := r.rxbuf ++ [pduId] }, acts)

/-- **C6.** `start_receive` with a PDU not already buffered: from
`IDLE` with an empty buffer it enters `RX` and marks the channel busy
(collision counter unchanged); from `RX`, or from `IDLE` with a
non-empty buffer, it enters `COLLIDED` and — being a transition from a
different state — increments `num_collisions` by exactly 1; in every
other state it changes neither state nor counter; in all branches the
PDU is appended to the reception buffer.  The last two conjuncts state
the setter's side-effect rule in general: entering `COLLIDED` from a
different state adds exactly 1, while setting `COLLIDED` when already
`COLLIDED` is a no-op. -/
theorem rxSetState_state (r : RxData) (st : RxState) :
    (rxSetState r st).state = st := by
  unfold rxSetState; split
  · rfl
  · next h => exact (not_not.mp h).symm

theorem rxSetState_rxbuf (r : RxData) (st : RxState) :
    (rxSetState r st).rxbuf = r.rxbuf := by
  unfold rxSetState; split <;> rfl

theorem rxSetState_collided_count (r : RxData)
    (h : r.state ≠ RxState.COLLIDED) :
    (rxSetState r RxState.COLLIDED).num_collisions =
      r.num_collisions + 1 := by
  unfold rxSetState
  rw [if_pos (Ne.symm h), if_pos rfl]

theorem rxSetState_count_of_ne (r : RxData) (st : RxState)
    (h : st ≠ RxState.COLLIDED) :
    (rxSetState r st).num_collisions = r.num_collisions := by
  unfold rxSetState; split
  · simp [h]
  · rfl

theorem rxSetState_same (r : RxData) (st : RxState)
    (h : r.state = st) : rxSetState r st = r := by
  unfold rxSetState
  rw [if_neg (by simp [h])]

theorem C6_start_receive (r : RxData) (pduId : ℕ)
    (hnew : pduId ∉ r.rxbuf) :
    (∃ r' acts, rxStartReceive r pduId = Except.ok (r', acts) ∧
      r'.rxbuf = r.rxbuf ++ [pduId] ∧
      ((r.state = RxState.IDLE ∧ r.rxbuf = []) →
        r'.state = RxState.RX ∧ acts = [RxAction.channelSetBusy] ∧
        r'.num_collisions = r.num_collisions) ∧
      ((r.state = RxState.RX ∨
          (r.state = RxState.IDLE ∧ r.rxbuf ≠ [])) →
        r'.state = RxState.COLLIDED ∧ acts = [] ∧
        r'.num_collisions = r.num_collisions + 1) ∧
      ((r.state ≠ RxState.IDLE ∧ r.state ≠ RxState.RX) →
        r'.state = r.state ∧ acts = [] ∧
        r'.num_collisions = r.num_collisions)) ∧
    (∀ s : RxData, s.state ≠ RxState.COLLIDED →
      (rxSetState s RxState.COLLIDED).num_collisions =
        s.num_collisions + 1) ∧
    (∀ s : RxData, s.state = RxState.COLLIDED →
      rxSetState s RxState.COLLIDED = s) := by
  refine ⟨?_, fun s hs => rxSetState_collided_count s hs,
    fun s hs => rxSetState_same s _ hs⟩
  by_cases h1 : r.state = RxState.IDLE ∧ r.rxbuf = []
  · refine ⟨{ rxSetState r RxState.RX with
        rxbuf := (rxSetState r RxState.RX).rxbuf ++ [pduId] },
      [RxAction.channelSetBusy], ?_, ?_, ?_, ?_, ?_⟩
    · unfold rxStartReceive
      rw [if_neg hnew, if_pos h1]
    · simp [rxSetState_rxbuf]
    · intro _
      exact ⟨rxSetState_state r _, rfl, rxSetState_count_of_ne r _ (by decide)⟩
    · rintro (h2 | h2)
      · rw [h1.1] at h2; cases h2
      · exact absurd h1.2 h2.2
    · rintro ⟨h2, _⟩; exact absurd h1.1 h2
  · by_cases h2 : r.state = RxState.RX ∨
        (r.state = RxState.IDLE ∧ r.rxbuf ≠ [])
    · have hne : r.state ≠ RxState.COLLIDED := by
        rcases h2 with h2 | ⟨h2, _⟩ <;> rw [h2] <;> decide
      refine ⟨{ rxSetState r RxState.COLLIDED with
          rxbuf := (rxSetState r RxState.COLLIDED).rxbuf ++ [pduId] },
        [], ?_, ?_, ?_, ?_, ?_⟩
      · unfold rxStartReceive
        rw [if_neg hnew, if_neg h1, if_pos h2]
      · simp [rxSetState_rxbuf]
      · intro h; exact absurd h h1
      · intro _
        exact ⟨rxSetState_state r _, rfl, rxSetState_collided_count r hne⟩
      · rintro ⟨hi, hr⟩
        rcases h2 with h2 | ⟨h2, _⟩
        · exact absurd h2 hr
        · exact absurd h2 hi
    · refine ⟨{ r with rxbuf := r.rxbuf ++ [pduId] }, [], ?_, rfl, ?_, ?_, ?_⟩
      · unfold rxStartReceive
        rw [if_neg hnew, if_neg h1, if_neg h2]
      · intro h; exact absurd h h1
      · intro h; exact absurd h h2
      · intro _; exact ⟨rfl, rfl, rfl⟩

/-- Witness for C6 at the initial receiver and PDU 7. -/
theorem C6_start_receive_witness :
    (∃ r' acts, rxStartReceive rxInit 7 = Except.ok (r', acts) ∧
      r'.rxbuf = rxInit.rxbuf ++ [7] ∧
      ((rxInit.state = RxState.IDLE ∧ rxInit.rxbuf = []) →
        r'.state = RxState.RX ∧ acts = [RxAction.channelSetBusy] ∧
        r'.num_collisions = rxInit.num_collisions) ∧
      ((rxInit.state = RxState.RX ∨
          (rxInit.state = RxState.IDLE ∧ rxInit.rxbuf ≠ [])) →
        r'.state = RxState.COLLIDED ∧ acts = [] ∧
        r'.num_collisions = rxInit.num_collisions + 1) ∧
      ((rxInit.state ≠ RxState.IDLE ∧ rxInit.state ≠ RxState.RX) →
        r'.state = rxInit.state ∧ acts = [] ∧
        r'.num_collisions = rxInit.num_collisions)) ∧
    (∀ s : RxData, s.state ≠ RxState.COLLIDED →
      (rxSetState s RxState.COLLIDED).num_collisions =
        s.num_collisions + 1) ∧
    (∀ s : RxData, s.state = RxState.COLLIDED →
      rxSetState s RxState.COLLIDED = s) :=
  C6_start_receive rxInit 7 (by decide)

/-! ## ConnectionManager (`simulations/modules/radio.py`)

A radio is identified by a number; `RadioInfo` carries the two
attributes `add_radio` reads: `position` (a 2-D point, rational
coordinates) and `connection_radius`.  The Python adjacency test is
`peer.connection_radius >= d and radio.connection_radius >= d` with
`d = norm(peer.position - radio.position)` the Euclidean distance; to
keep the embedding executable over `ℚ` the comparison `√s ≤ r` is
encoded squared as `0 ≤ r ∧ s ≤ r²` (`radiusReaches`), which is
equivalent (`radiusReaches_iff_sqrt_le`). -/

/-- The attributes of a `Radio` that `ConnectionManager.add_radio`
reads. -/
structure RadioInfo where
  posX : ℚ
  posY : ℚ
  connection_radius : ℚ
deriving DecidableEq, Repr

/-- Squared Euclidean distance between two radios. -/
def sqDist (a b : RadioInfo) : ℚ :=
  (a.posX - b.posX) ^ 2 + (a.posY - b.posY) ^ 2

/-- `r ≥ d` for `d = √s`, encoded without square roots. -/
def radiusReaches (r s : ℚ) : Bool := 0 ≤ r ∧ s ≤ r ^ 2

/-- The in-range test of `add_radio`:
`peer.connection_radius >= d and radio.connection_radius >= d`. -/
def radiosInRange (env : ℕ → RadioInfo) (peer radio : ℕ) : Bool :=
  radiusReaches (env peer).connection_radius (sqDist (env peer) (env radio))
    && radiusReaches (env radio).connection_radius
         (sqDist (env peer) (env radio))

/-- The `connected_radios` dict of a `ConnectionManager`: its keys in
insertion order, and the peer-list values (total, `[]` off the keys). -/
structure CMState where
  keys : List ℕ
  peers : ℕ → List ℕ

/-- Fresh connection manager (`ConnectionManager.__init__`). -/
def cmInit : CMState := { keys := [], peers := fun _ => [] }

/-- The body of `add_radio`'s loop over `connected_radios.keys()`: the
accumulator holds the `peers` list under construction and the current
dict values; each in-range peer (other than the radio itself) is
appended to `peers` and gets `radio` appended to its own list if not
already present. -/
def cmLoopStep (env : ℕ → RadioInfo) (radio : ℕ)
    (acc : List ℕ × (ℕ → List ℕ)) (peer : ℕ) :
    List ℕ × (ℕ → List ℕ) :=
  if peer = radio then acc
  else if radiosInRange env peer radio then
    (acc.1 ++ [peer],
     fun x =>
       if x = peer then
         if radio ∈ acc.2 peer then acc.2 peer else acc.2 peer ++ [radio]
       else acc.2 x)
  else acc

/-- `ConnectionManager.add_radio(radio)` (lines 169-188): registers the
radio if new, connects it symmetrically to every in-range registered
peer, and overwrites its own peer list with the freshly computed one. -/
def addRadio (env : ℕ → RadioInfo) (cm : CMState) (radio : ℕ) : CMState :=
  let cm :=
    if radio ∈ cm.keys then cm
    else { keys := cm.keys ++ [radio],
           peers := fun x => if x = radio then [] else cm.peers x }
  let res := cm.keys.foldl (cmLoopStep env radio) ([], cm.peers)
  { keys := cm.keys,
    peers := fun x => if x = radio then res.1 else res.2 x }

/-- `ConnectionManager.get_peers(radio)`. -/
def getPeers (cm : CMState) (radio : ℕ) : List ℕ := cm.peers radio

/-- A sequence of `add_radio` calls applied to a fresh manager. -/
def runAddRadios (env : ℕ → RadioInfo) (ops : List ℕ) : CMState :=
  ops.foldl (addRadio env) cmInit

theorem sqDist_comm (a b : RadioInfo) : sqDist a b = sqDist b a := by
  unfold sqDist; ring

theorem radiosInRange_comm (env : ℕ → RadioInfo) (a b : ℕ) :
    radiosInRange env a b = radiosInRange env b a := by
  unfold radiosInRange
  rw [sqDist_comm]
  exact Bool.and_comm _ _

/-- `radiusReaches` is the square-free encoding of `√s ≤ r`. -/
theorem radiusReaches_iff_sqrt_le (r s : ℚ) :
    radiusReaches r s = true ↔ Real.sqrt (s : ℝ) ≤ (r : ℝ) := by
  have hq : radiusReaches r s = true ↔ (0 ≤ r ∧ s ≤ r ^ 2) := by
    rw [radiusReaches]
    exact decide_eq_true_iff
  rw [hq, Real.sqrt_le_iff]
  constructor
  · rintro ⟨h1, h2⟩
    exact ⟨by exact_mod_cast h1, by exact_mod_cast h2⟩
  · rintro ⟨h1, h2⟩
    exact ⟨by exact_mod_cast h1, by exact_mod_cast h2⟩

/-- The data-structure invariant of `connected_radios`: keys are
distinct, unregistered radios have no entry, and a registered radio's
peer list holds exactly the other registered radios within mutual
range. -/
def cmInv (env : ℕ → RadioInfo) (cm : CMState) : Prop :=
  cm.keys.Nodup ∧
  (∀ a, a ∉ cm.keys → cm.peers a = []) ∧
  (∀ a, a ∈ cm.keys → ∀ b,
    (b ∈ cm.peers a ↔
      b ∈ cm.keys ∧ b ≠ a ∧ radiosInRange env a b = true))

theorem cmLoop_fst (env : ℕ → RadioInfo) (radio : ℕ) :
    ∀ (l : List ℕ) (acc : List ℕ × (ℕ → List ℕ)),
      (l.foldl (cmLoopStep env radio) acc).1 =
        acc.1 ++ l.filter (fun k => (k != radio) && radiosInRange env k radio)
  | [], acc => by simp
  | k :: tl, acc => by
    rw [List.foldl_cons, cmLoop_fst env radio tl, List.filter_cons]
    unfold cmLoopStep
    by_cases hk : k = radio
    · simp [hk]
    · by_cases hr : radiosInRange env k radio
      · simp [hk, hr]
      · simp [hk, hr]

theorem cmLoop_snd_radio (env : ℕ → RadioInfo) (radio : ℕ) :
    ∀ (l : List ℕ) (acc : List ℕ × (ℕ → List ℕ)),
      (l.foldl (cmLoopStep env radio) acc).2 radio = acc.2 radio
  | [], acc => rfl
  | k :: tl, acc => by
    rw [List.foldl_cons, cmLoop_snd_radio env radio tl]
    unfold cmLoopStep
    by_cases hk : k = radio
    · simp [hk]
    · by_cases hr : radiosInRange env k radio
      · simp [hk, hr, Ne.symm hk]
      · simp [hk, hr]

theorem cmLoop_snd (env : ℕ → RadioInfo) (radio : ℕ) :
    ∀ (l : List ℕ) (acc : List ℕ × (ℕ → List ℕ)) (x : ℕ),
      l.Nodup → x ≠ radio →
      (l.foldl (cmLoopStep env radio) acc).2 x =
        if x ∈ l ∧ radiosInRange env x radio = true then
          (if radio ∈ acc.2 x then acc.2 x else acc.2 x ++ [radio])
        else acc.2 x
  | [], acc, x, _, _ => by simp
  | k :: tl, acc, x, hnd, hx => by
    have hndtl : tl.Nodup := hnd.of_cons
    have hknotl : k ∉ tl := (List.nodup_cons.mp hnd).1
    rw [List.foldl_cons, cmLoop_snd env radio tl _ x hndtl hx]
    by_cases hk : k = radio
    · have hstep : cmLoopStep env radio acc k = acc := by
        simp [cmLoopStep, hk]
      rw [hstep]
      have hxk : x ≠ k := fun h => hx (h.trans hk)
      simp [List.mem_cons, hxk]
    · by_cases hr : radiosInRange env k radio
      · have hstep : cmLoopStep env radio acc k =
            (acc.1 ++ [k],
             fun y => if y = k then
                 (if radio ∈ acc.2 k then acc.2 k else acc.2 k ++ [radio])
               else acc.2 y) := by
          simp [cmLoopStep, hk, hr]
        rw [hstep]
        by_cases hxk : x = k
        · subst hxk
          simp [hknotl, hr, List.mem_cons]
        · simp [List.mem_cons, hxk]
      · have hstep : cmLoopStep env radio acc k = acc := by
          simp [cmLoopStep, hk, hr]
        rw [hstep]
        by_cases hxk : x = k
        · subst hxk
          simp [hknotl, hr]
        · simp [List.mem_cons, hxk]

/-- `add_radio` preserves the `connected_radios` invariant. -/
theorem addRadio_inv (env : ℕ → RadioInfo) (cm : CMState) (radio : ℕ)
    (h : cmInv env cm) : cmInv env (addRadio env cm radio) := by
  obtain ⟨hnd, hout, hmem⟩ := h
  -- The state after the conditional key insertion.
  set cm1 : CMState :=
    if radio ∈ cm.keys then cm
    else { keys := cm.keys ++ [radio],
           peers := fun x => if x = radio then [] else cm.peers x }
    with hcm1
  have hk1 : radio ∈ cm1.keys := by
    rw [hcm1]; split
    next hin => exact hin
    next => simp
  have hnd1 : cm1.keys.Nodup := by
    rw [hcm1]; split
    next => exact hnd
    next hin =>
      rw [List.nodup_append]
      refine ⟨hnd, List.nodup_singleton _, ?_⟩
      intro a haa hb
      rw [List.mem_singleton] at hb
      subst hb
      exact hin haa
  have hout1 : ∀ a, a ∉ cm1.keys → cm1.peers a = [] := by
    intro a ha
    rw [hcm1] at ha ⊢; revert ha; split
    next => exact hout a
    next hin =>
      intro ha
      simp only [List.mem_append, List.mem_singleton, not_or] at ha
      simp only [if_neg ha.2]
      exact hout a ha.1
  have hmem1 : ∀ a, a ∈ cm1.keys → a ≠ radio → ∀ b,
      (b ∈ cm1.peers a ↔
        (b ∈ cm1.keys ∧ b ≠ a ∧ radiosInRange env a b = true) ∧
          (b = radio → radio ∈ cm.keys)) := by
    intro a ha hne b
    rw [hcm1] at ha ⊢; revert ha; split
    next hin =>
      intro ha
      rw [hmem a ha b]
      constructor
      · rintro ⟨h1, h2, h3⟩
        exact ⟨⟨h1, h2, h3⟩, fun _ => hin⟩
      · rintro ⟨⟨h1, h2, h3⟩, _⟩
        exact ⟨h1, h2, h3⟩
    next hin =>
      intro ha
      simp only [List.mem_append, List.mem_singleton, if_neg hne] at ha ⊢
      have ha' : a ∈ cm.keys := ha.resolve_right hne
      rw [hmem a ha' b]
      constructor
      · rintro ⟨h1, h2, h3⟩
        refine ⟨⟨Or.inl h1, h2, h3⟩, fun hb => absurd (hb ▸ h1) hin⟩
      · rintro ⟨⟨h1 | h1, h2, h3⟩, h4⟩
        · exact ⟨h1, h2, h3⟩
        · exact absurd (h4 h1) hin
  -- The final state.
  have hfin : addRadio env cm radio =
      { keys := cm1.keys,
        peers := fun x =>
          if x = radio then
            (cm1.keys.foldl (cmLoopStep env radio) ([], cm1.peers)).1
          else (cm1.keys.foldl (cmLoopStep env radio) ([], cm1.peers)).2 x }
      := by
    rw [addRadio, hcm1]
  rw [hfin]
  refine ⟨hnd1, ?_, ?_⟩
  · intro a ha
    simp only at ha ⊢
    have hne : a ≠ radio := fun h => ha (h ▸ hk1)
    rw [if_neg hne, cmLoop_snd env radio _ _ a hnd1 hne,
      if_neg (fun hc => ha hc.1)]
    exact hout1 a ha
  · intro a ha b
    simp only at ha ⊢
    by_cases hne : a = radio
    · rw [hne, if_pos rfl, cmLoop_fst]
      simp only [List.nil_append, List.mem_filter, Bool.and_eq_true,
        bne_iff_ne, ne_eq]
      rw [radiosInRange_comm]
    · rw [if_neg hne, cmLoop_snd env radio _ _ a hnd1 hne]
      by_cases hir : radiosInRange env a radio = true
      · rw [if_pos ⟨ha, hir⟩]
        simp only
        have hcase :
            (b ∈ if radio ∈ cm1.peers a then cm1.peers a
                 else cm1.peers a ++ [radio]) ↔
              (b ∈ cm1.peers a ∨ b = radio) := by
          split
          next hrin =>
            constructor
            · exact Or.inl
            · rintro (hb | hb)
              · exact hb
              · exact hb ▸ hrin
          next => simp
        rw [hcase, hmem1 a ha hne b]
        constructor
        · rintro (⟨⟨h1, h2, h3⟩, _⟩ | hb)
          · exact ⟨h1, h2, h3⟩
          · subst hb
            exact ⟨hk1, Ne.symm hne, hir⟩
        · rintro ⟨h1, h2, h3⟩
          by_cases hb : b = radio
          · exact Or.inr hb
          · exact Or.inl ⟨⟨h1, h2, h3⟩, fun hc => absurd hc hb⟩
      · rw [if_neg (fun hc => hir hc.2)]
        rw [hmem1 a ha hne b]
        constructor
        · rintro ⟨⟨h1, h2, h3⟩, _⟩
          exact ⟨h1, h2, h3⟩
        · rintro ⟨h1, h2, h3⟩
          refine ⟨⟨h1, h2, h3⟩, fun hb => ?_⟩
          exact absurd (hb ▸ h3) hir

theorem runAddRadios_inv (env : ℕ → RadioInfo) (ops : List ℕ) :
    cmInv env (runAddRadios env ops) := by
  rw [runAddRadios]
  induction ops using List.reverseRecOn with
  | nil =>
    rw [List.foldl_nil]
    exact ⟨List.nodup_nil, fun a _ => rfl,
      fun a ha => absurd ha (List.not_mem_nil a)⟩
  | append_singleton l radio ih =>
    rw [List.foldl_append, List.foldl_cons, List.foldl_nil]
    exact addRadio_inv env _ radio ih

/-- **C9.** After any sequence of `add_radio` calls, for any two
distinct registered radios `a` and `b`: `a` is a peer of `b` iff `b` is
a peer of `a`, iff the Euclidean distance `d` between their positions
satisfies `d ≤ a.connection_radius` and `d ≤ b.connection_radius`; and
no radio is ever its own peer. -/
theorem C9_peer_relation (env : ℕ → RadioInfo) (ops : List ℕ) (a b : ℕ)
    (ha : a ∈ (runAddRadios env ops).keys)
    (hb : b ∈ (runAddRadios env ops).keys) (hab : a ≠ b) :
    (a ∈ getPeers (runAddRadios env ops) b ↔
      b ∈ getPeers (runAddRadios env ops) a) ∧
    (a ∈ getPeers (runAddRadios env ops) b ↔
      (Real.sqrt ((sqDist (env a) (env b) : ℚ) : ℝ) ≤
          ((env a).connection_radius : ℝ) ∧
        Real.sqrt ((sqDist (env a) (env b) : ℚ) : ℝ) ≤
          ((env b).connection_radius : ℝ))) ∧
    (∀ c, c ∉ getPeers (runAddRadios env ops) c) := by
  obtain ⟨hnd, hout, hmem⟩ := runAddRadios_inv env ops
  have hrange : ∀ x y : ℕ, radiosInRange env x y = true ↔
      (Real.sqrt ((sqDist (env x) (env y) : ℚ) : ℝ) ≤
          ((env x).connection_radius : ℝ) ∧
        Real.sqrt ((sqDist (env x) (env y) : ℚ) : ℝ) ≤
          ((env y).connection_radius : ℝ)) := by
    intro x y
    rw [radiosInRange, Bool.and_eq_true,
      radiusReaches_iff_sqrt_le, radiusReaches_iff_sqrt_le]
  refine ⟨?_, ?_, ?_⟩
  · rw [getPeers, getPeers, hmem b hb a, hmem a ha b]
    rw [radiosInRange_comm]
    constructor
    · rintro ⟨h1, _, h3⟩
      exact ⟨hb, Ne.symm hab, h3⟩
    · rintro ⟨h1, _, h3⟩
      exact ⟨ha, hab, h3⟩
  · rw [getPeers, hmem b hb a, radiosInRange_comm, hrange a b]
    constructor
    · rintro ⟨_, _, h3⟩
      exact h3
    · intro h3
      exact ⟨ha, hab, h3⟩
  · intro c
    by_cases hc : c ∈ (runAddRadios env ops).keys
    · rw [getPeers, hmem c hc c]
      rintro ⟨_, h2, _⟩
      exact h2 rfl
    · rw [getPeers, hout c hc]
      simp

/-- Witness for C9: radios 0 at the origin and 1 at (3, 4), both with
connection radius 5 (distance exactly 5, mutually in range). -/
theorem C9_peer_relation_witness :
    (0 ∈ getPeers (runAddRadios
        (fun n => if n = 0 then ⟨0, 0, 5⟩ else ⟨3, 4, 5⟩) [0, 1]) 1 ↔
      1 ∈ getPeers (runAddRadios
        (fun n => if n = 0 then ⟨0, 0, 5⟩ else ⟨3, 4, 5⟩) [0, 1]) 0) ∧
    (0 ∈ getPeers (runAddRadios
        (fun n => if n = 0 then ⟨0, 0, 5⟩ else ⟨3, 4, 5⟩) [0, 1]) 1 ↔
      (Real.sqrt ((sqDist ((fun n : ℕ => if n = 0 then
            (⟨0, 0, 5⟩ : RadioInfo) else ⟨3, 4, 5⟩) 0)
          ((fun n : ℕ => if n = 0 then (⟨0, 0, 5⟩ : RadioInfo)
            else ⟨3, 4, 5⟩) 1) : ℚ) : ℝ) ≤
          (((fun n : ℕ => if n = 0 then (⟨0, 0, 5⟩ : RadioInfo)
            else ⟨3, 4, 5⟩) 0).connection_radius : ℝ) ∧
        Real.sqrt ((sqDist ((fun n : ℕ => if n = 0 then
            (⟨0, 0, 5⟩ : RadioInfo) else ⟨3, 4, 5⟩) 0)
          ((fun n : ℕ => if n = 0 then (⟨0, 0, 5⟩ : RadioInfo)
            else ⟨3, 4, 5⟩) 1) : ℚ) : ℝ) ≤
          (((fun n : ℕ => if n = 0 then (⟨0, 0, 5⟩ : RadioInfo)
            else ⟨3, 4, 5⟩) 1).connection_radius : ℝ))) ∧
    (∀ c, c ∉ getPeers (runAddRadios
        (fun n => if n = 0 then ⟨0, 0, 5⟩ else ⟨3, 4, 5⟩) [0, 1]) c) :=
  C9_peer_relation (fun n => if n = 0 then ⟨0, 0, 5⟩ else ⟨3, 4, 5⟩)
    [0, 1] 0 1 (by decide) (by decide) (by decide)

/-! ## ACK timing (`AckPDU.size`, `AirFrame.duration`,
`Transmitter.finish_transmit`, `Receiver.handle_timeout`) -/

/-- `AckPDU` (`wireless_interface.py` lines 88-114). -/
structure AckPDU where
  header_size : ℚ
  ack_size : ℚ
  sender_address : ℕ
  receiver_address : ℕ
deriving DecidableEq, Repr

/-- `AckPDU.size` property: `header_size + ack_size`. -/
def AckPDU.size (a : AckPDU) : ℚ := a.header_size + a.ack_size

/-- The `AckPDU` built by `Receiver.handle_timeout` (lines 603-612):
`header_size` is the receiver's `phy_header_size` only — no MAC
header. -/
def rxBuildAck (phy ack : ℚ) (selfAddr senderAddr : ℕ) : AckPDU :=
  { header_size := phy, ack_size := ack,
    sender_address := selfAddr, receiver_address := senderAddr }

/-- `AirFrame.duration` (`radio.py` lines 24-26):
`pdu.size / bitrate + preamble`. -/
def airFrameDuration (pduSize bitrate preamble : ℚ) : ℚ :=
  pduSize / bitrate + preamble

/-- **C10.** The ACK-wait interval scheduled by `finish_transmit` is
`sifs + (ack_size + mac_header_size + phy_header_size)/bitrate +
preamble + 6·max_propagation`, while the `AckPDU` the receiver sends
back has size `phy_header_size + ack_size` only; hence the timeout
interval exceeds `sifs` plus the actual ACK frame duration by exactly
`mac_header_size/bitrate + 6·max_propagation`. -/
theorem C10_ack_timeout_margin (cfg : TxConfig) (t : TxData) (eid : ℕ)
    (selfAddr senderAddr : ℕ)
    (htx : t.state = TxState.TX) (hbit : 0 < cfg.bitrate) :
    (txFinishTransmit cfg eid t).2 =
      [TxAction.schedule
        (cfg.sifs +
          ((cfg.ack_size + cfg.mac_header_size + cfg.phy_header_size) /
              cfg.bitrate + cfg.preamble + 6 * cfg.max_propagation)) eid] ∧
    (rxBuildAck cfg.phy_header_size cfg.ack_size selfAddr senderAddr).size =
      cfg.phy_header_size + cfg.ack_size ∧
    cfg.sifs + txAckDuration cfg =
      (cfg.sifs +
        airFrameDuration
          (rxBuildAck cfg.phy_header_size cfg.ack_size
            selfAddr senderAddr).size
          cfg.bitrate cfg.preamble) +
      (cfg.mac_header_size / cfg.bitrate + 6 * cfg.max_propagation) := by
  refine ⟨by simp [txFinishTransmit, htx, txAckDuration], rfl, ?_⟩
  rw [txAckDuration, airFrameDuration, rxBuildAck, AckPDU.size]
  have hb : cfg.bitrate ≠ 0 := ne_of_gt hbit
  field_simp
  ring

/-- Witness for C10 at the demo configuration and the reachable `TX`
state `txDemo2`. -/
theorem C10_ack_timeout_margin_witness :
    (txFinishTransmit txCfgDemo 30 txDemo2).2 =
      [TxAction.schedule
        (txCfgDemo.sifs +
          ((txCfgDemo.ack_size + txCfgDemo.mac_header_size +
              txCfgDemo.phy_header_size) / txCfgDemo.bitrate +
            txCfgDemo.preamble + 6 * txCfgDemo.max_propagation)) 30] ∧
    (rxBuildAck txCfgDemo.phy_header_size txCfgDemo.ack_size 2 1).size =
      txCfgDemo.phy_header_size + txCfgDemo.ack_size ∧
    txCfgDemo.sifs + txAckDuration txCfgDemo =
      (txCfgDemo.sifs +
        airFrameDuration
          (rxBuildAck txCfgDemo.phy_header_size txCfgDemo.ack_size 2 1).size
          txCfgDemo.bitrate txCfgDemo.preamble) +
      (txCfgDemo.mac_header_size / txCfgDemo.bitrate +
        6 * txCfgDemo.max_propagation) :=
  C10_ack_timeout_margin txCfgDemo txDemo2 30 2 1 (by decide) (by decide)

/-! ## Bianchi analytic model (`analytic/bianchi.py`)

`get_bianchi_time_matrix` builds a dense `numpy` matrix by assignments;
it is embedded as a total function `ℕ → ℕ → ℚ` built from an all-zero
matrix by the same sequence of cell writes (entries outside the
`order × order` block stay 0).  The running `cw` variable of the stage
loop is carried explicitly through a fold. -/

/-- `get_bianchi_chain_state_index(stage, backoff, cwmin)`
(`bianchi.py` lines 37-41). -/
def get_bianchi_chain_state_index (stage backoff cwmin : ℕ) : ℕ :=
  cwmin * (2 ^ stage - 1) + backoff

/-- Transition matrices over the flattened chain states. -/
abbrev BMat := ℕ → ℕ → ℚ

/-- A single `mat[r, c] = v` assignment. -/
def matWrite (mt : BMat) (r c : ℕ) (v : ℚ) : BMat :=
  fun r' c' => if r' = r ∧ c' = c then v else mt r' c'

/-- The backoff-decrement loop
`for b in range(1, cw): mat[(i,b),(i,b-1)] = 1` of stage `i`
(lines 93-94). -/
def bianchiDecFold (W i cw : ℕ) (mt : BMat) : BMat :=
  (List.range' 1 (cw - 1)).foldl
    (fun a b => matWrite a (get_bianchi_chain_state_index i b W)
      (get_bianchi_chain_state_index i (b - 1) W) 1) mt

/-- The attempt-row loop `for b in range(cw): mat[(i,0),(next_i,b)] = p/cw`
of stage `i` (lines 100-102), with `cw2` the updated window. -/
def bianchiAttFold (W i nx cw2 : ℕ) (p : ℚ) (mt : BMat) : BMat :=
  (List.range cw2).foldl
    (fun a b => matWrite a (get_bianchi_chain_state_index i 0 W)
      (get_bianchi_chain_state_index nx b W) (p / (cw2 : ℚ))) mt

/-- One iteration of the stage loop of `get_bianchi_time_matrix`
(lines 92-102): the backoff-decrement writes, then the window update
(`cw *= 2` and `next_i = i+1` below the last stage), then the
attempt-row writes.  The state carries `(cw, mat)`. -/
def bianchiStage (W m : ℕ) (p : ℚ) (st : ℕ × BMat) (i : ℕ) : ℕ × BMat :=
  let cw := st.1
  let mt := bianchiDecFold W i cw st.2
  let cw2 := if i < m then cw * 2 else cw
  let nx := if i < m then i + 1 else i
  (cw2, bianchiAttFold W i nx cw2 p mt)

/-- `get_bianchi_time_matrix(params)` (lines 86-103) as a function of
`m = params.m`, `W = params.W` and `p = params.p`. -/
def get_bianchi_time_matrix (m W : ℕ) (p : ℚ) : BMat :=
  ((List.range (m + 1)).foldl (bianchiStage W m p) (W, fun _ _ => 0)).2

/-- `next_i` of stage `i`. -/
def bianchiNext (m i : ℕ) : ℕ := if i < m then i + 1 else i

/-- The contention window `cw` in force for the attempt row of stage
`i` (after the `cw *= 2` update below the last stage). -/
def bianchiNextCW (m W i : ℕ) : ℕ :=
  if i < m then W * 2 ^ (i + 1) else W * 2 ^ i

/-- Closed form of the row `(i, b)` of the Bianchi transition matrix:
backoff states decrement deterministically, attempt states spread
`p / cw'` uniformly over the next stage's window. -/
def bianchiEntry (m W : ℕ) (p : ℚ) (i b c : ℕ) : ℚ :=
  if b ≠ 0 then
    (if c = get_bianchi_chain_state_index i (b - 1) W then 1 else 0)
  else if get_bianchi_chain_state_index (bianchiNext m i) 0 W ≤ c ∧
      c < get_bianchi_chain_state_index (bianchiNext m i) 0 W +
        bianchiNextCW m W i
  then p / (bianchiNextCW m W i : ℚ) else 0

theorem two_pow_pos' (k : ℕ) : 0 < (2 : ℕ) ^ k :=
  pow_pos (by norm_num) k

theorem mul_two_pow_succ_sub_one (W k : ℕ) :
    W * (2 ^ (k + 1) - 1) = W * (2 ^ k - 1) + W * 2 ^ k := by
  have h1 : 0 < (2 : ℕ) ^ k := two_pow_pos' k
  have h2 : (2 : ℕ) ^ (k + 1) = 2 ^ k * 2 := pow_succ 2 k
  rw [h2, ← Nat.mul_add]
  congr 1
  omega

theorem idx_base_le (W i b : ℕ) :
    W * (2 ^ i - 1) ≤ get_bianchi_chain_state_index i b W :=
  Nat.le_add_right _ _

theorem idx_lt_next_base (W i b : ℕ) (hb : b < W * 2 ^ i) :
    get_bianchi_chain_state_index i b W < W * (2 ^ (i + 1) - 1) := by
  rw [mul_two_pow_succ_sub_one]
  exact Nat.add_lt_add_left hb _

theorem idx_inj (W i b b' : ℕ) :
    get_bianchi_chain_state_index i b W =
      get_bianchi_chain_state_index i b' W ↔ b = b' := by
  unfold get_bianchi_chain_state_index
  omega

theorem idx_stage_lt (W i j b b' : ℕ) (hij : i < j) (hb : b < W * 2 ^ i) :
    get_bianchi_chain_state_index i b W <
      get_bianchi_chain_state_index j b' W := by
  have h1 := idx_lt_next_base W i b hb
  have h2 : W * (2 ^ (i + 1) - 1) ≤ W * (2 ^ j - 1) := by
    apply Nat.mul_le_mul_left
    have := Nat.pow_le_pow_right (by norm_num : 1 ≤ 2) hij
    omega
  exact lt_of_lt_of_le h1 (le_trans h2 (idx_base_le W j b'))

theorem idx_stage_ne (W i j b b' : ℕ) (hij : i ≠ j)
    (hb : b < W * 2 ^ i) (hb' : b' < W * 2 ^ j) :
    get_bianchi_chain_state_index i b W ≠
      get_bianchi_chain_state_index j b' W := by
  rcases lt_or_gt_of_ne hij with h | h
  · exact Nat.ne_of_lt (idx_stage_lt W i j b b' h hb)
  · exact (Nat.ne_of_lt (idx_stage_lt W j i b' b h hb')).symm

/-- Every row index below the order decomposes uniquely as a chain
state `(i, b)`. -/
theorem row_decompose (W : ℕ) :
    ∀ k r, r < W * (2 ^ k - 1) →
      ∃ i b, i < k ∧ b < W * 2 ^ i ∧
        r = get_bianchi_chain_state_index i b W
  | 0, r, hr => absurd hr (by simp)
  | k + 1, r, hr => by
    by_cases h : r < W * (2 ^ k - 1)
    · obtain ⟨i, b, hik, hb, heq⟩ := row_decompose W k r h
      exact ⟨i, b, Nat.lt_succ_of_lt hik, hb, heq⟩
    · refine ⟨k, r - W * (2 ^ k - 1), Nat.lt_succ_self k, ?_, ?_⟩
      · rw [mul_two_pow_succ_sub_one] at hr
        omega
      · unfold get_bianchi_chain_state_index
        omega

/-- A fold of cell writes leaves a cell untouched when no write targets
it. -/
theorem foldl_matWrite_miss (f : BMat → ℕ → BMat) (g h : ℕ → ℕ)
    (v : ℕ → ℚ) (hf : ∀ a b, f a b = matWrite a (g b) (h b) (v b)) :
    ∀ (l : List ℕ) (mt : BMat) (r c : ℕ),
      (∀ b ∈ l, ¬(g b = r ∧ h b = c)) →
      (l.foldl f mt) r c = mt r c
  | [], _, _, _, _ => rfl
  | k :: tl, mt, r, c, hmiss => by
    rw [List.foldl_cons,
      foldl_matWrite_miss f g h v hf tl _ r c
        (fun b hb => hmiss b (List.mem_cons_of_mem k hb)),
      hf mt k, matWrite]
    rw [if_neg]
    rintro ⟨h1, h2⟩
    exact hmiss k (List.mem_cons_self k tl) ⟨h1.symm, h2.symm⟩

/-- A fold of cell writes stores `v b0` in a cell hit by the write of
`b0`, provided every other write hitting that cell stores the same
value. -/
theorem foldl_matWrite_hit (f : BMat → ℕ → BMat) (g h : ℕ → ℕ)
    (v : ℕ → ℚ) (hf : ∀ a b, f a b = matWrite a (g b) (h b) (v b))
    (l : List ℕ) :
    ∀ (mt : BMat) (r c b0 : ℕ), b0 ∈ l → g b0 = r → h b0 = c →
      (∀ b ∈ l, g b = r ∧ h b = c → v b = v b0) →
      (l.foldl f mt) r c = v b0 := by
  induction l using List.reverseRecOn with
  | nil => intro mt r c b0 hb0; cases hb0
  | append_singleton l' k ih =>
    intro mt r c b0 hb0 hg hh huniq
    rw [List.foldl_append, List.foldl_cons, List.foldl_nil, hf _ k,
      matWrite]
    by_cases hk : r = g k ∧ c = h k
    · rw [if_pos hk]
      exact huniq k (by simp) ⟨hk.1.symm, hk.2.symm⟩
    · rw [if_neg hk]
      have hb0' : b0 ∈ l' := by
        rcases List.mem_append.mp hb0 with hmem | hmem
        · exact hmem
        · rw [List.mem_singleton] at hmem
          subst hmem
          exact absurd ⟨hg.symm, hh.symm⟩ hk
      exact ih mt r c b0 hb0' hg hh
        (fun b hb hcond => huniq b (List.mem_append_left _ hb) hcond)

/-- The decrement fold leaves every row other than the stage's backoff
rows untouched. -/
theorem bianchiDecFold_other_row (W i cw : ℕ) (mt : BMat) (r c : ℕ)
    (hrow : ∀ b, 1 ≤ b → b < cw → get_bianchi_chain_state_index i b W ≠ r) :
    bianchiDecFold W i cw mt r c = mt r c := by
  apply foldl_matWrite_miss _
    (fun b => get_bianchi_chain_state_index i b W)
    (fun b => get_bianchi_chain_state_index i (b - 1) W)
    (fun _ => 1) (fun a b => rfl)
  intro b hb
  rw [List.mem_range'_1] at hb
  rintro ⟨h1, _⟩
  exact hrow b hb.1 (by omega) h1

/-- Value of a backoff row after the decrement fold. -/
theorem bianchiDecFold_row (W i cw b : ℕ) (mt : BMat) (c : ℕ)
    (hb1 : 1 ≤ b) (hb2 : b < cw) :
    bianchiDecFold W i cw mt (get_bianchi_chain_state_index i b W) c =
      if c = get_bianchi_chain_state_index i (b - 1) W then 1
      else mt (get_bianchi_chain_state_index i b W) c := by
  by_cases hc : c = get_bianchi_chain_state_index i (b - 1) W
  · rw [if_pos hc]
    apply foldl_matWrite_hit _
      (fun b => get_bianchi_chain_state_index i b W)
      (fun b => get_bianchi_chain_state_index i (b - 1) W)
      (fun _ => 1) (fun a b => rfl) _ mt _ _ b
    · rw [List.mem_range'_1]
      omega
    · rfl
    · exact hc.symm
    · intro b' _ _
      rfl
  · rw [if_neg hc]
    apply foldl_matWrite_miss _
      (fun b => get_bianchi_chain_state_index i b W)
      (fun b => get_bianchi_chain_state_index i (b - 1) W)
      (fun _ => 1) (fun a b => rfl)
    intro b' hb'
    rw [List.mem_range'_1] at hb'
    rintro ⟨h1, h2⟩
    rw [idx_inj] at h1
    subst h1
    exact hc h2.symm

/-- The attempt fold touches only the row `(i, 0)`. -/
theorem bianchiAttFold_other_row (W i nx cw2 : ℕ) (p : ℚ) (mt : BMat)
    (r c : ℕ) (hrow : get_bianchi_chain_state_index i 0 W ≠ r) :
    bianchiAttFold W i nx cw2 p mt r c = mt r c := by
  apply foldl_matWrite_miss _
    (fun _ => get_bianchi_chain_state_index i 0 W)
    (fun b => get_bianchi_chain_state_index nx b W)
    (fun _ => p / (cw2 : ℚ)) (fun a b => rfl)
  intro b _
  rintro ⟨h1, _⟩
  exact hrow h1

/-- Value of the attempt row after the attempt fold: `p/cw2` on the
`cw2` consecutive states of stage `nx`, the previous value elsewhere. -/
theorem bianchiAttFold_row (W i nx cw2 : ℕ) (p : ℚ) (mt : BMat) (c : ℕ) :
    bianchiAttFold W i nx cw2 p mt (get_bianchi_chain_state_index i 0 W) c =
      if get_bianchi_chain_state_index nx 0 W ≤ c ∧
          c < get_bianchi_chain_state_index nx 0 W + cw2
      then p / (cw2 : ℚ)
      else mt (get_bianchi_chain_state_index i 0 W) c := by
  by_cases hc : get_bianchi_chain_state_index nx 0 W ≤ c ∧
      c < get_bianchi_chain_state_index nx 0 W + cw2
  · rw [if_pos hc]
    apply foldl_matWrite_hit _
      (fun _ => get_bianchi_chain_state_index i 0 W)
      (fun b => get_bianchi_chain_state_index nx b W)
      (fun _ => p / (cw2 : ℚ)) (fun a b => rfl) _ mt _ _
      (c - get_bianchi_chain_state_index nx 0 W)
    · rw [List.mem_range]
      omega
    · rfl
    · unfold get_bianchi_chain_state_index at hc ⊢
      omega
    · intro b' _ _
      rfl
  · rw [if_neg hc]
    apply foldl_matWrite_miss _
      (fun _ => get_bianchi_chain_state_index i 0 W)
      (fun b => get_bianchi_chain_state_index nx b W)
      (fun _ => p / (cw2 : ℚ)) (fun a b => rfl)
    intro b' hb'
    rw [List.mem_range] at hb'
    rintro ⟨_, h2⟩
    apply hc
    unfold get_bianchi_chain_state_index at h2 ⊢
    omega

/-- The fold of `get_bianchi_time_matrix` over the first `k` stages. -/
def bianchiPrefix (m W : ℕ) (p : ℚ) (k : ℕ) : ℕ × BMat :=
  (List.range k).foldl (bianchiStage W m p) (W, fun _ _ => 0)

theorem get_bianchi_time_matrix_eq_prefix (m W : ℕ) (p : ℚ) :
    get_bianchi_time_matrix m W p = (bianchiPrefix m W p (m + 1)).2 := rfl

theorem bianchiPrefix_succ (m W : ℕ) (p : ℚ) (k : ℕ) :
    bianchiPrefix m W p (k + 1) =
      bianchiStage W m p (bianchiPrefix m W p k) k := by
  rw [bianchiPrefix, List.range_succ, List.foldl_append, List.foldl_cons,
    List.foldl_nil]
  rfl

theorem bianchiStage_fst (W m : ℕ) (p : ℚ) (st : ℕ × BMat) (i : ℕ) :
    (bianchiStage W m p st i).1 = if i < m then st.1 * 2 else st.1 := rfl

theorem bianchiStage_snd (W m : ℕ) (p : ℚ) (st : ℕ × BMat) (i : ℕ) :
    (bianchiStage W m p st i).2 =
      bianchiAttFold W i (if i < m then i + 1 else i)
        (if i < m then st.1 * 2 else st.1) p
        (bianchiDecFold W i st.1 st.2) := rfl

/-- Invariant of the stage loop: after stages `0, …, k-1`, the running
window is `W·2^min(k,m)`, all rows from stage `k` on are still zero,
and the rows of completed stages carry their final closed-form
values. -/
theorem bianchiFold_spec (m W : ℕ) (p : ℚ) (hW : 1 ≤ W) :
    ∀ k, k ≤ m + 1 →
      (bianchiPrefix m W p k).1 = W * 2 ^ (min k m) ∧
      (∀ r c, W * (2 ^ k - 1) ≤ r → (bianchiPrefix m W p k).2 r c = 0) ∧
      (∀ i, i < k → ∀ b c, b < W * 2 ^ i →
        (bianchiPrefix m W p k).2 (get_bianchi_chain_state_index i b W) c
          = bianchiEntry m W p i b c) := by
  intro k
  induction k with
  | zero =>
    intro _
    exact ⟨by simp [bianchiPrefix], fun r c _ => rfl,
      fun i hi => absurd hi (Nat.not_lt_zero i)⟩
  | succ k ih =>
    intro hk1
    have hkm : k ≤ m := Nat.succ_le_succ_iff.mp hk1
    obtain ⟨hcw, hhigh, hrows⟩ := ih (Nat.le_of_succ_le hk1)
    have hcwk : (bianchiPrefix m W p k).1 = W * 2 ^ k := by
      rw [hcw, Nat.min_eq_left hkm]
    have hWpos : 0 < W * 2 ^ k := Nat.mul_pos hW (two_pow_pos' k)
    rw [bianchiPrefix_succ]
    refine ⟨?_, ?_, ?_⟩
    · rw [bianchiStage_fst, hcwk]
      by_cases h : k < m
      · rw [if_pos h, Nat.min_eq_left (Nat.succ_le_of_lt h), mul_assoc,
          ← pow_succ]
      · have hkm' : k = m := le_antisymm hkm (not_lt.mp h)
        rw [if_neg h, hkm', Nat.min_eq_right (Nat.le_succ m)]
    · intro r c hr
      rw [bianchiStage_snd, hcwk]
      have hrk : ∀ b, b < W * 2 ^ k →
          get_bianchi_chain_state_index k b W ≠ r := by
        intro b hb
        have h1 := idx_lt_next_base W k b hb
        omega
      rw [bianchiAttFold_other_row _ _ _ _ _ _ _ _ (hrk 0 hWpos),
        bianchiDecFold_other_row _ _ _ _ _ _
          (fun b _ hb2 => hrk b hb2)]
      apply hhigh r c
      calc W * (2 ^ k - 1) ≤ W * (2 ^ (k + 1) - 1) := by
            apply Nat.mul_le_mul_left
            have := Nat.pow_le_pow_right (by norm_num : 1 ≤ 2)
              (Nat.le_succ k)
            omega
        _ ≤ r := hr
    · intro i hik b c hb
      rw [bianchiStage_snd, hcwk]
      by_cases hi : i < k
      · have hne0 : get_bianchi_chain_state_index k 0 W ≠
            get_bianchi_chain_state_index i b W :=
          idx_stage_ne W k i 0 b (Nat.ne_of_gt hi) hWpos hb
        rw [bianchiAttFold_other_row _ _ _ _ _ _ _ _ hne0,
          bianchiDecFold_other_row _ _ _ _ _ _
            (fun b'' _ hb2 =>
              idx_stage_ne W k i b'' b (Nat.ne_of_gt hi) hb2 hb)]
        exact hrows i hi b c hb
      · have hik' : i = k := by omega
        subst hik'
        by_cases hb0 : b = 0
        · subst hb0
          rw [bianchiAttFold_row,
            bianchiDecFold_other_row _ _ _ _ _ _
              (fun b'' hb1 _ => fun hcontra =>
                Nat.one_le_iff_ne_zero.mp hb1 ((idx_inj W i b'' 0).mp hcontra)),
            hhigh _ c (idx_base_le W i 0)]
          have hentry : bianchiEntry m W p i 0 c =
              if get_bianchi_chain_state_index (bianchiNext m i) 0 W ≤ c ∧
                  c < get_bianchi_chain_state_index (bianchiNext m i) 0 W +
                    bianchiNextCW m W i
              then p / (bianchiNextCW m W i : ℚ) else 0 := by
            unfold bianchiEntry
            simp
          rw [hentry, bianchiNext, bianchiNextCW]
          by_cases h : i < m
          · simp only [if_pos h]
            rw [mul_assoc, ← pow_succ]
          · simp only [if_neg h]
        · rw [bianchiAttFold_other_row _ _ _ _ _ _ _ _
              (fun hcontra => hb0 ((idx_inj W i 0 b).mp hcontra).symm),
            bianchiDecFold_row W i (W * 2 ^ i) b _ c
              (Nat.one_le_iff_ne_zero.mpr hb0) hb,
            hhigh _ c (idx_base_le W i b)]
          rw [bianchiEntry, if_pos hb0]

/-- The attempt-row support of stage `i` ends at or before the matrix
order. -/
theorem bianchi_att_support_le (m W i : ℕ) (him : i ≤ m) :
    get_bianchi_chain_state_index (bianchiNext m i) 0 W +
      bianchiNextCW m W i ≤ W * (2 ^ (m + 1) - 1) := by
  unfold bianchiNext bianchiNextCW get_bianchi_chain_state_index
  by_cases h : i < m
  · simp only [if_pos h]
    rw [add_zero, ← mul_two_pow_succ_sub_one]
    apply Nat.mul_le_mul_left
    have := Nat.pow_le_pow_right (by norm_num : 1 ≤ 2)
      (by omega : i + 1 + 1 ≤ m + 1)
    omega
  · have him' : i = m := le_antisymm him (not_lt.mp h)
    subst him'
    simp only [if_neg h]
    rw [add_zero, ← mul_two_pow_succ_sub_one]

theorem bianchiNextCW_pos (m W i : ℕ) (hW : 1 ≤ W) :
    0 < bianchiNextCW m W i := by
  unfold bianchiNextCW
  split <;> exact Nat.mul_pos hW (two_pow_pos' _)

/-- **C1.** The matrix built by `get_bianchi_time_matrix` is the square
matrix of order `W·(2^(m+1)−1)` over states flattened by
`index(stage,b) = W·(2^stage−1)+b` in which every backoff row `(i,b)`
(`0 < b < W·2^i`) has a single 1 at `(i,b−1)`, every attempt row
`(i,0)` carries `p/CW'` uniformly on the `CW'` states of the next stage
(`CW' = W·2^(i+1)`, next stage `i+1`) — or of stage `m` itself with
`CW' = W·2^m` when `i = m` — and zeros elsewhere, so each attempt row
sums to `p` (the missing `1−p` being the absorbing exit); for `m = 0`,
`cwmin = 4`, the matrix is exactly the 4×4 uniform-spread matrix
`row[0] = p/4`, `row[b>0]` the identity shift. -/
theorem C1_time_matrix (m W : ℕ) (p : ℚ) (hW : 1 ≤ W) :
    (∀ r c, W * (2 ^ (m + 1) - 1) ≤ r ∨ W * (2 ^ (m + 1) - 1) ≤ c →
      get_bianchi_time_matrix m W p r c = 0) ∧
    (∀ i b, i ≤ m → 0 < b → b < W * 2 ^ i → ∀ c,
      get_bianchi_time_matrix m W p
          (get_bianchi_chain_state_index i b W) c =
        if c = get_bianchi_chain_state_index i (b - 1) W then 1 else 0) ∧
    (∀ i, i < m → ∀ c,
      get_bianchi_time_matrix m W p
          (get_bianchi_chain_state_index i 0 W) c =
        if get_bianchi_chain_state_index (i + 1) 0 W ≤ c ∧
            c < get_bianchi_chain_state_index (i + 1) 0 W + W * 2 ^ (i + 1)
        then p / ((W * 2 ^ (i + 1) : ℕ) : ℚ) else 0) ∧
    (∀ c,
      get_bianchi_time_matrix m W p
          (get_bianchi_chain_state_index m 0 W) c =
        if get_bianchi_chain_state_index m 0 W ≤ c ∧
            c < get_bianchi_chain_state_index m 0 W + W * 2 ^ m
        then p / ((W * 2 ^ m : ℕ) : ℚ) else 0) ∧
    (∀ i, i ≤ m →
      ∑ c in Finset.range (W * (2 ^ (m + 1) - 1)),
        get_bianchi_time_matrix m W p
          (get_bianchi_chain_state_index i 0 W) c = p) ∧
    (∀ (q : ℚ) r c, r < 4 → c < 4 →
      get_bianchi_time_matrix 0 4 q r c =
        if r = 0 then q / 4 else if c = r - 1 then 1 else 0) := by
  obtain ⟨-, hhigh, hrowsv⟩ := bianchiFold_spec m W p hW (m + 1) le_rfl
  rw [← get_bianchi_time_matrix_eq_prefix] at hhigh hrowsv
  have hrows : ∀ i, i ≤ m → ∀ b c, b < W * 2 ^ i →
      get_bianchi_time_matrix m W p
        (get_bianchi_chain_state_index i b W) c = bianchiEntry m W p i b c :=
    fun i hi => hrowsv i (Nat.lt_succ_of_le hi)
  have hattval : ∀ i, i ≤ m → ∀ c,
      get_bianchi_time_matrix m W p
        (get_bianchi_chain_state_index i 0 W) c =
      (if get_bianchi_chain_state_index (bianchiNext m i) 0 W ≤ c ∧
          c < get_bianchi_chain_state_index (bianchiNext m i) 0 W +
            bianchiNextCW m W i
        then p / ((bianchiNextCW m W i : ℕ) : ℚ) else 0) := by
    intro i hi c
    rw [hrows i hi 0 c (Nat.mul_pos hW (two_pow_pos' i))]
    unfold bianchiEntry
    simp
  refine ⟨?_, ?_, ?_, ?_, ?_, ?_⟩
  · -- everything outside the order×order block is zero
    intro r c hrc
    rcases hrc with hr | hc
    · exact hhigh r c hr
    · by_cases hr : W * (2 ^ (m + 1) - 1) ≤ r
      · exact hhigh r c hr
      · obtain ⟨i, b, hik, hb, heq⟩ :=
          row_decompose W (m + 1) r (not_le.mp hr)
        have him : i ≤ m := Nat.lt_succ_iff.mp hik
        subst heq
        by_cases hb0 : b = 0
        · subst hb0
          rw [hattval i him c, if_neg]
          rintro ⟨-, h2⟩
          have := bianchi_att_support_le m W i him
          omega
        · rw [hrows i him b c hb, bianchiEntry, if_pos hb0, if_neg]
          intro hceq
          have h1 : b - 1 < W * 2 ^ i := by omega
          have h2 := idx_lt_next_base W i (b - 1) h1
          have h3 : W * (2 ^ (i + 1) - 1) ≤ W * (2 ^ (m + 1) - 1) := by
            apply Nat.mul_le_mul_left
            have := Nat.pow_le_pow_right (by norm_num : 1 ≤ 2)
              (by omega : i + 1 ≤ m + 1)
            omega
          omega
  · -- backoff rows: deterministic decrement
    intro i b him hb0 hb c
    rw [hrows i him b c hb, bianchiEntry, if_pos (by omega : b ≠ 0)]
  · -- attempt rows below the last stage
    intro i him c
    rw [hattval i (le_of_lt him) c]
    unfold bianchiNext bianchiNextCW
    simp only [if_pos him]
  · -- the attempt row of the last stage
    intro c
    rw [hattval m le_rfl c]
    unfold bianchiNext bianchiNextCW
    simp only [if_neg (lt_irrefl m)]
  · -- each attempt row sums to p
    intro i him
    have hsub : Finset.Ico (get_bianchi_chain_state_index (bianchiNext m i) 0 W)
        (get_bianchi_chain_state_index (bianchiNext m i) 0 W +
          bianchiNextCW m W i) ⊆
        Finset.range (W * (2 ^ (m + 1) - 1)) := by
      intro x hx
      rw [Finset.mem_Ico] at hx
      rw [Finset.mem_range]
      have := bianchi_att_support_le m W i him
      omega
    have hne : ((bianchiNextCW m W i : ℕ) : ℚ) ≠ 0 := by
      exact_mod_cast Nat.pos_iff_ne_zero.mp (bianchiNextCW_pos m W i hW)
    calc ∑ c in Finset.range (W * (2 ^ (m + 1) - 1)),
          get_bianchi_time_matrix m W p
            (get_bianchi_chain_state_index i 0 W) c
        = ∑ c in Finset.range (W * (2 ^ (m + 1) - 1)),
            (if c ∈ Finset.Ico
                (get_bianchi_chain_state_index (bianchiNext m i) 0 W)
                (get_bianchi_chain_state_index (bianchiNext m i) 0 W +
                  bianchiNextCW m W i)
              then p / ((bianchiNextCW m W i : ℕ) : ℚ) else 0) := by
          apply Finset.sum_congr rfl
          intro c _
          rw [hattval i him c]
          simp [Finset.mem_Ico]
      _ = ∑ c in Finset.range (W * (2 ^ (m + 1) - 1)) ∩
            Finset.Ico
              (get_bianchi_chain_state_index (bianchiNext m i) 0 W)
              (get_bianchi_chain_state_index (bianchiNext m i) 0 W +
                bianchiNextCW m W i),
            p / ((bianchiNextCW m W i : ℕ) : ℚ) :=
          Finset.sum_ite_mem _ _ _
      _ = ∑ _c in Finset.Ico
            (get_bianchi_chain_state_index (bianchiNext m i) 0 W)
            (get_bianchi_chain_state_index (bianchiNext m i) 0 W +
              bianchiNextCW m W i),
            p / ((bianchiNextCW m W i : ℕ) : ℚ) := by
          rw [Finset.inter_eq_right.mpr hsub]
      _ = ((bianchiNextCW m W i : ℕ) : ℚ) *
            (p / ((bianchiNextCW m W i : ℕ) : ℚ)) := by
          rw [Finset.sum_const, Nat.card_Ico, nsmul_eq_mul]
          congr 2
          omega
      _ = p := by
          rw [mul_div_assoc']
          exact mul_div_cancel_left₀ p hne
  · -- the m = 0, cwmin = 4 closed form
    intro q r c hr hc
    obtain ⟨-, -, hrowsv0⟩ :=
      bianchiFold_spec 0 4 q (by norm_num) 1 le_rfl
    rw [← get_bianchi_time_matrix_eq_prefix] at hrowsv0
    have hidx : get_bianchi_chain_state_index 0 r 4 = r := by
      unfold get_bianchi_chain_state_index
      norm_num
    have hval := hrowsv0 0 (by norm_num) r c (by norm_num; omega)
    rw [hidx] at hval
    rw [hval]
    unfold bianchiEntry bianchiNext bianchiNextCW
      get_bianchi_chain_state_index
    by_cases hr0 : r = 0
    · subst hr0
      norm_num
      omega
    · simp only [if_pos hr0, if_neg hr0]
      norm_num

/-- Witness for C1 at `m = 1`, `W = 2`, `p = 1/3`: the attempt row of
the last stage sums to `p`. -/
theorem C1_time_matrix_witness :
    (1 : ℕ) ≤ 2 ∧
    ∑ c in Finset.range (2 * (2 ^ (1 + 1) - 1)),
      get_bianchi_time_matrix 1 2 (1 / 3)
        (get_bianchi_chain_state_index 1 0 2) c = 1 / 3 :=
  ⟨by decide, (C1_time_matrix 1 2 (1 / 3) (by decide)).2.2.2.2.1 1 le_rfl⟩

/-! ## Holding-time distributions of `bianchi_time`
(`analytic/bianchi.py` lines 126-167)

The `pyqumo` distribution objects `Constant`, `LinComb` and `VarChoice`
are embedded as a syntax tree: `bianchi_time` only builds them and
stores them in `time_dists`, so for the claims it suffices to track
which constructor (with which arguments) sits at each chain state.
`payload_size` is taken as a scalar (the tests use `Constant(1000)`),
`p`/`tau` as given parameters (in the source they come from `fsolve`,
a numeric root finder). -/

/-- A `pyqumo` distribution expression. -/
inductive TimeDist
  | const : ℚ → TimeDist
  | linComb : List ℚ → List ℚ → TimeDist
  | varChoice : List TimeDist → List ℚ → TimeDist

/-- Result of `get_bianchi_slot_times` (lines 44-62). -/
structure BianchiSlotTimes where
  empty : TimeDist
  data : TimeDist
  collided : TimeDist

/-- `get_bianchi_slot_times(payload, ack, machdr, phyhdr, preamble,
bitrate, difs, sifs, slot, distance, c)` (lines 44-62). -/
def get_bianchi_slot_times (payload ack machdr phyhdr preamble bitrate
    difs sifs slot distance c : ℚ) : BianchiSlotTimes :=
  let propagation := distance / c
  let t_data_ctrl := preamble + (machdr + phyhdr) / bitrate
  let t_ack := preamble + (phyhdr + ack) / bitrate
  { empty := TimeDist.const slot,
    data := TimeDist.linComb
      [difs + sifs + 2 * propagation + t_data_ctrl + t_ack, payload]
      [1, 1 / bitrate],
    collided := TimeDist.linComb
      [difs + sifs + 6 * propagation + t_data_ctrl + t_ack, payload]
      [1, 1 / bitrate] }

/-- Result of `get_bianchi_slot_probs` (lines 65-83). -/
structure BianchiSlotProbs where
  wait_slot_empty : ℚ
  wait_slot_success : ℚ
  wait_slot_collided : ℚ
  trans_slot_success : ℚ
  trans_slot_collided : ℚ
deriving DecidableEq, Repr

/-- `get_bianchi_slot_probs(params)` (lines 65-83) as a function of
`n = params.n`, `p = params.p`, `tau = params.tau`. -/
def get_bianchi_slot_probs (n : ℕ) (p tau : ℚ) : BianchiSlotProbs :=
  if 1 < n then
    let p_tr := 1 - (1 - tau) ^ (n - 1)
    let p_s := (n - 1) * tau * (1 - tau) ^ (n - 2) / p_tr
    { wait_slot_empty := 1 - p_tr,
      wait_slot_success := p_tr * p_s,
      wait_slot_collided := p_tr * (1 - p_s),
      trans_slot_success := 1 - p,
      trans_slot_collided := p }
  else
    { wait_slot_empty := 1, wait_slot_success := 0,
      wait_slot_collided := 0,
      trans_slot_success := 1 - p, trans_slot_collided := p }

/-- The `time_dists` construction of `bianchi_time` (lines 151-163):
`time_dists = [Constant(0)] * order`, then
`for i in range(m):` — note: `range(m)`, not `range(m+1)` — assign the
backoff-slot mixture to states `(i, 1), …, (i, cw−1)` and the
transmission mixture to state `(i, 0)`. -/
def bianchi_time_dists (m cwmin : ℕ) (st : BianchiSlotTimes)
    (sp : BianchiSlotProbs) : List TimeDist :=
  let order := cwmin * (2 ^ (m + 1) - 1)
  (List.range m).foldl (fun td i =>
    let cw := cwmin * 2 ^ i
    let td := (List.range' 1 (cw - 1)).foldl (fun td b =>
      td.set (get_bianchi_chain_state_index i b cwmin)
        (TimeDist.varChoice [st.empty, st.data, st.collided]
          [sp.wait_slot_empty, sp.wait_slot_success,
           sp.wait_slot_collided])) td
    td.set (get_bianchi_chain_state_index i 0 cwmin)
      (TimeDist.varChoice [st.collided, st.data]
        [sp.trans_slot_collided, sp.trans_slot_success]))
    (List.replicate order (TimeDist.const 0))

/-- Slot-time distributions at the functional-test parameters
(payload 1000, ack 100, mac header 50, phy header 25, preamble 1 ms,
bitrate 1000 bps, DIFS 200 ms, SIFS 100 ms, slot 50 ms, distance 100 m,
c = 10⁵ m/s). -/
def bianchiSlotTimesDemo : BianchiSlotTimes :=
  get_bianchi_slot_times 1000 100 50 25 (1 / 1000) 1000 (1 / 5)
    (1 / 10) (1 / 20) 100 100000

/-- Slot-type probabilities for `n = 5` stations at the fixed point
`p ≈ 0.87`, `τ ≈ 0.4` of the unit-test case `(5, 4, 4)`. -/
def bianchiSlotProbsDemo : BianchiSlotProbs :=
  get_bianchi_slot_probs 5 (87 / 100) (2 / 5)

/-- **C2 (code bug).** `bianchi_time` assigns holding-time
distributions with `for i in range(bianchi.m)` (line 152), skipping the
last backoff stage `m`: every state of stage `m` keeps the placeholder
`Constant(0)`.  For `cwmin = cwmax` (`m = 0`, the unit-test case
`(5, 4, 4)`) *all* chain states keep `Constant(0)`; for
`cwmin = 2, cwmax = 8` (`m = 2`, the functional-test configuration) the
eight states of stage 2 keep `Constant(0)` while the stages below `m`
do receive the claimed mixtures. -/
theorem C2_last_stage_const_zero :
    bianchi_time_dists 0 4 bianchiSlotTimesDemo bianchiSlotProbsDemo =
      List.replicate 4 (TimeDist.const 0) ∧
    (bianchi_time_dists 2 2 bianchiSlotTimesDemo
        bianchiSlotProbsDemo).get?
        (get_bianchi_chain_state_index 2 0 2) =
      some (TimeDist.const 0) ∧
    (bianchi_time_dists 2 2 bianchiSlotTimesDemo
        bianchiSlotProbsDemo).get?
        (get_bianchi_chain_state_index 2 7 2) =
      some (TimeDist.const 0) ∧
    (bianchi_time_dists 2 2 bianchiSlotTimesDemo
        bianchiSlotProbsDemo).get?
        (get_bianchi_chain_state_index 0 1 2) =
      some (TimeDist.varChoice
        [bianchiSlotTimesDemo.empty, bianchiSlotTimesDemo.data,
         bianchiSlotTimesDemo.collided]
        [bianchiSlotProbsDemo.wait_slot_empty,
         bianchiSlotProbsDemo.wait_slot_success,
         bianchiSlotProbsDemo.wait_slot_collided]) ∧
    (bianchi_time_dists 2 2 bianchiSlotTimesDemo
        bianchiSlotProbsDemo).get?
        (get_bianchi_chain_state_index 1 0 2) =
      some (TimeDist.varChoice
        [bianchiSlotTimesDemo.collided, bianchiSlotTimesDemo.data]
        [bianchiSlotProbsDemo.trans_slot_collided,
         bianchiSlotProbsDemo.trans_slot_success]) :=
  ⟨rfl, rfl, rfl, rfl, rfl⟩

end PyCSMACA
